import Mathlib

/-!
Shallow embedding of the transcription cache in `src/cache.py`
(`class TranscriptionCache`).

Modelling conventions:

- An artifact (the Python `data : Dict[str, Any]`, a JSON-serializable
  value) is modelled by an opaque type parameter `α`.  `json.dump`
  followed by `json.load` is deep-equality-preserving on
  JSON-serializable values, so serialization is modelled as the identity
  and deep equality as Lean equality.
- The cache directory is the field `files`: an association list from the
  derived cache key (the filename stem) to the parsed content of the
  artifact file.  A file that is unreadable or fails to parse is
  `FileData.corrupt`; a readable file holding the serialization of `a`
  is `FileData.good a`.  The metadata file is the field `metadata`,
  kept in parsed form (the Python code rewrites it wholesale on every
  mutation; external corruption of the metadata file makes
  `_load_metadata` return `{}`, which is the state `metadata = []`).
- `hashlib.md5(video_id.encode()).hexdigest()` is an arbitrary
  deterministic function, modelled by a parameter `h : String → String`
  (`_get_cache_key`); `_get_cache_path` is the pair (key, `files` map).
- Timestamps (`datetime.now().isoformat()`) are natural numbers; the
  ISO format compares lexicographically exactly as chronologically, both
  for the expiry comparison and for the eviction sort, so `Nat` order is
  faithful.  `datetime.now() - cached_time > self.max_age` becomes
  `now - timestamp > maxAge`: for `now < timestamp` Python gets a
  negative timedelta and the comparison is false, and truncated `Nat`
  subtraction gives `0 > maxAge`, also false, so the translation agrees.
- `cache_path.stat().st_size`, the byte size of the file just written by
  `json.dump(data, ...)`, is `sz data` for a parameter `sz : α → Nat`
  (the model is proved for every size function).
- Python dicts are insertion-ordered: assignment to an existing key
  keeps its position, assignment to a new key appends.  `sorted` is a
  stable sort.  Both are modelled exactly (`updateA`, `sortByTime`).
-/

/-- Parsed content of one artifact file in the cache directory. -/
inductive FileData (α : Type) where
  /-- The file holds the serialization of artifact `data` and parses back to it. -/
  | good (data : α)
  /-- The file is unreadable or fails to parse (`json.load` raises). -/
  | corrupt
  deriving DecidableEq, Repr

/-- One record of the metadata index `cache_metadata.json`:
`{video_id, timestamp, size}` as written by `TranscriptionCache.set`. -/
structure MetaEntry where
  video_id : String
  timestamp : Nat
  size : Nat
  deriving DecidableEq, Repr

/-- The persistent state owned by one `TranscriptionCache`: the artifact
files of the cache directory (keyed by the derived cache key) and the
parsed metadata index. -/
structure CacheState (α : Type) where
  files : List (String × FileData α)
  metadata : List (String × MetaEntry)
  deriving DecidableEq, Repr

/-- First-match lookup in an association list (Python `d[k]` / `k in d`). -/
def lookupA {β : Type} : List (String × β) → String → Option β
  | [], _ => none
  | (k, v) :: rest, key => if k = key then some v else lookupA rest key

/-- Removal of a key from an association list (Python `del d[k]`,
respectively `Path.unlink`; keys are unique in any real dict or
directory, so removing every occurrence is faithful). -/
def eraseA {β : Type} (l : List (String × β)) (key : String) : List (String × β) :=
  l.filter (fun p => p.1 ≠ key)

/-- Python dict assignment `d[k] = v`: replaces the value in place when
the key is present (keeping its insertion position), appends otherwise. -/
def updateA {β : Type} (l : List (String × β)) (key : String) (v : β) : List (String × β) :=
  if (lookupA l key).isSome then
    l.map (fun p => if p.1 = key then (key, v) else p)
  else
    l ++ [(key, v)]

/-- Sum of the `size` fields of a metadata index
(`sum(entry[ 'size' ] for entry in metadata.values())`). -/
def sumSizes (l : List (String × MetaEntry)) : Nat :=
  (l.map (fun p => p.2.size)).sum

/-- Stable insertion of an item after every item of smaller or equal
timestamp. -/
def insertByTime (p : String × MetaEntry) :
    List (String × MetaEntry) → List (String × MetaEntry)
  | [] => [p]
  | q :: rest =>
      if q.2.timestamp ≤ p.2.timestamp then q :: insertByTime p rest
      else p :: q :: rest

/-- Python `sorted(metadata.items(), key=lambda x: x[1][ 'timestamp' ])`:
a stable sort, ascending by timestamp. -/
def sortByTime (l : List (String × MetaEntry)) : List (String × MetaEntry) :=
  l.foldl (fun acc p => insertByTime p acc) []

namespace TranscriptionCache

/-- `TranscriptionCache.delete`: remove the artifact file if it exists,
and the metadata record if present. -/
def delete {α : Type} (h : String → String) (s : CacheState α) (video_id : String) :
    CacheState α :=
  let cache_key := h video_id
  let files :=
    if (lookupA s.files cache_key).isSome then eraseA s.files cache_key else s.files
  let metadata :=
    if (lookupA s.metadata cache_key).isSome then eraseA s.metadata cache_key
    else s.metadata
  ⟨files, metadata⟩

/-- The while-loop of `TranscriptionCache._cleanup_if_needed`: pop the
oldest remaining snapshot entry and `delete` its video while the running
total exceeds the budget and entries remain. -/
def evictLoop {α : Type} (h : String → String) (maxSize : Nat) :
    List (String × MetaEntry) → Nat → CacheState α → CacheState α
  | [], _, s => s
  | (_, entry) :: rest, total, s =>
      if total > maxSize then
        evictLoop h maxSize rest (total - entry.size) (delete h s entry.video_id)
      else s

/-- `TranscriptionCache._cleanup_if_needed`: if the summed metadata sizes
exceed `max_cache_size`, delete entries oldest-first (stable sort by
timestamp) until the running total is within budget or the snapshot is
exhausted. -/
def cleanupIfNeeded {α : Type} (h : String → String) (maxSize : Nat)
    (s : CacheState α) : CacheState α :=
  let total := sumSizes s.metadata
  if total > maxSize then
    evictLoop h maxSize (sortByTime s.metadata) total s
  else s

/-- The part of `TranscriptionCache.set` before `_cleanup_if_needed`:
write the artifact file, then upsert its metadata record
`{video_id, timestamp: now, size}`. -/
def setUpdate {α : Type} (h : String → String) (sz : α → Nat) (now : Nat)
    (s : CacheState α) (video_id : String) (data : α) : CacheState α :=
  let cache_key := h video_id
  ⟨updateA s.files cache_key (.good data),
   updateA s.metadata cache_key ⟨video_id, now, sz data⟩⟩

/-- `TranscriptionCache.set`: write the artifact file, record metadata,
then run the size cleanup. -/
def set {α : Type} (h : String → String) (sz : α → Nat) (maxSize now : Nat)
    (s : CacheState α) (video_id : String) (data : α) : CacheState α :=
  cleanupIfNeeded h maxSize (setUpdate h sz now s video_id data)

/-- `TranscriptionCache.get`: returns the parsed artifact (or `none`) and
the possibly-mutated state.  Absent file: miss.  Metadata entry present
and older than `max_age`: expired, delete and miss.  Unreadable or
unparseable file: delete and miss.  Otherwise: hit. -/
def get {α : Type} (h : String → String) (maxAge now : Nat) (s : CacheState α)
    (video_id : String) : Option α × CacheState α :=
  let cache_key := h video_id
  match lookupA s.files cache_key with
  | none => (none, s)
  | some content =>
      let expired : Bool :=
        match lookupA s.metadata cache_key with
        | some entry => now - entry.timestamp > maxAge
        | none => false
      if expired then (none, delete h s video_id)
      else
        match content with
        | .good data => (some data, s)
        | .corrupt => (none, delete h s video_id)

/-- `TranscriptionCache.clear`: unlink every artifact file (all of them
match the `*.json` glob and none is the metadata file) and reset the
metadata index to empty. -/
def clear {α : Type} (_ : CacheState α) : CacheState α :=
  ⟨[], []⟩

/-- The fields of `TranscriptionCache.get_stats` that are not
floating-point presentation: the entry count and the raw byte totals
(the Python code additionally renders sizes in rounded megabytes). -/
structure Stats where
  total_videos : Nat
  total_size : Nat
  max_size : Nat
  deriving DecidableEq, Repr

/-- `TranscriptionCache.get_stats`: read-only aggregate over the
metadata index. -/
def get_stats {α : Type} (maxSize : Nat) (s : CacheState α) : Stats :=
  ⟨s.metadata.length, sumSizes s.metadata, maxSize⟩

end TranscriptionCache

/-- Removal of one cache entry as the spec words it: delete the artifact
file at that key and the metadata record at that key. -/
def removeEntry {α : Type} (s : CacheState α) (key : String) : CacheState α :=
  ⟨eraseA s.files key, eraseA s.metadata key⟩

/-- Eviction loop exactly as the spec words it: repeatedly remove the
oldest remaining entry (delete its artifact file and its metadata record,
decrement running total) until total size is at most max size or no
entries remain. -/
def evictLoopSpec {α : Type} (maxSize : Nat) :
    List (String × MetaEntry) → Nat → CacheState α → CacheState α
  | [], _, s => s
  | (key, entry) :: rest, total, s =>
      if total ≤ maxSize then s
      else evictLoopSpec maxSize rest (total - entry.size) (removeEntry s key)

/-- Eviction as the spec words it: compute the total as the sum of the
size fields; if it is at most the max size, stop and change nothing; else
sort entries ascending by stored time and remove oldest-first. -/
def cleanupSpec {α : Type} (maxSize : Nat) (s : CacheState α) : CacheState α :=
  let total := sumSizes s.metadata
  if total ≤ maxSize then s
  else evictLoopSpec maxSize (sortByTime s.metadata) total s

/-- The lock-step invariant of the spec data model: a metadata record
exists for a key iff the artifact file for that key exists on disk. -/
def CacheInv {α : Type} (s : CacheState α) : Prop :=
  ∀ key, (lookupA s.files key).isSome ↔ (lookupA s.metadata key).isSome

section AssocLemmas

variable {β : Type}

theorem lookupA_cons (k : String) (v : β) (rest : List (String × β)) (key : String) :
    lookupA ((k, v) :: rest) key = if k = key then some v else lookupA rest key := rfl

theorem lookupA_eq_none_iff (l : List (String × β)) (key : String) :
    lookupA l key = none ↔ ∀ p ∈ l, p.1 ≠ key := by
  induction l with
  | nil => simp [lookupA]
  | cons q rest ih =>
      obtain ⟨k, v⟩ := q
      rw [lookupA_cons]
      by_cases hk : k = key
      · subst hk
        simp
      · simp [hk, ih]

theorem eraseA_cons (k : String) (v : β) (rest : List (String × β)) (key : String) :
    eraseA ((k, v) :: rest) key =
      if k = key then eraseA rest key else (k, v) :: eraseA rest key := by
  by_cases hk : k = key <;> simp [eraseA, List.filter_cons, hk]

theorem lookupA_eraseA_self (l : List (String × β)) (key : String) :
    lookupA (eraseA l key) key = none := by
  induction l with
  | nil => rfl
  | cons q rest ih =>
      obtain ⟨k, v⟩ := q
      rw [eraseA_cons]
      by_cases hk : k = key
      · simpa [hk] using ih
      · rw [if_neg hk, lookupA_cons, if_neg hk]
        exact ih

theorem lookupA_eraseA_ne (l : List (String × β)) {key k : String} (hne : k ≠ key) :
    lookupA (eraseA l key) k = lookupA l k := by
  induction l with
  | nil => rfl
  | cons q rest ih =>
      obtain ⟨k', v⟩ := q
      rw [eraseA_cons, lookupA_cons]
      by_cases h1 : k' = key
      · rw [if_pos h1]
        have h2 : ¬k' = k := fun hc => hne (hc ▸ h1)
        rw [if_neg h2]
        exact ih
      · rw [if_neg h1, lookupA_cons, ih]

theorem eraseA_eq_self_of_none (l : List (String × β)) (key : String)
    (hnone : lookupA l key = none) : eraseA l key = l := by
  induction l with
  | nil => rfl
  | cons q rest ih =>
      obtain ⟨k, v⟩ := q
      rw [lookupA_cons] at hnone
      by_cases hk : k = key
      · rw [if_pos hk] at hnone
        exact absurd hnone (by simp)
      · rw [if_neg hk] at hnone
        rw [eraseA_cons, if_neg hk, ih hnone]

theorem lookupA_append_none (l₁ l₂ : List (String × β)) (key : String)
    (hnone : lookupA l₁ key = none) :
    lookupA (l₁ ++ l₂) key = lookupA l₂ key := by
  induction l₁ with
  | nil => rfl
  | cons q rest ih =>
      obtain ⟨k, v⟩ := q
      rw [lookupA_cons] at hnone
      by_cases hk : k = key
      · rw [if_pos hk] at hnone
        exact absurd hnone (by simp)
      · rw [if_neg hk] at hnone
        rw [List.cons_append, lookupA_cons, if_neg hk, ih hnone]

theorem lookupA_append_some (l₁ l₂ : List (String × β)) (key : String) (v : β)
    (hsome : lookupA l₁ key = some v) :
    lookupA (l₁ ++ l₂) key = some v := by
  induction l₁ with
  | nil => simp [lookupA] at hsome
  | cons q rest ih =>
      obtain ⟨k, w⟩ := q
      rw [List.cons_append, lookupA_cons]
      rw [lookupA_cons] at hsome
      by_cases hk : k = key
      · rw [if_pos hk] at hsome ⊢
        exact hsome
      · rw [if_neg hk] at hsome ⊢
        exact ih hsome

theorem map_replace_of_none (l : List (String × β)) (key : String) (v : β)
    (hnone : lookupA l key = none) :
    l.map (fun p => if p.1 = key then (key, v) else p) = l := by
  induction l with
  | nil => rfl
  | cons q rest ih =>
      obtain ⟨k, w⟩ := q
      rw [lookupA_cons] at hnone
      by_cases hk : k = key
      · rw [if_pos hk] at hnone
        exact absurd hnone (by simp)
      · rw [if_neg hk] at hnone
        simp only [List.map_cons, ih hnone]
        congr 1
        simp [hk]

theorem lookupA_map_replace_self (l : List (String × β)) (key : String) (v : β)
    (hsome : (lookupA l key).isSome) :
    lookupA (l.map (fun p => if p.1 = key then (key, v) else p)) key = some v := by
  induction l with
  | nil => simp [lookupA] at hsome
  | cons q rest ih =>
      obtain ⟨k, w⟩ := q
      simp only [List.map_cons]
      by_cases hk : k = key
      · have h1 : (if (k, w).1 = key then (key, v) else (k, w)) = (key, v) := by simp [hk]
        rw [h1, lookupA_cons, if_pos rfl]
      · have h1 : (if (k, w).1 = key then (key, v) else (k, w)) = (k, w) := by simp [hk]
        rw [lookupA_cons, if_neg hk] at hsome
        rw [h1, lookupA_cons, if_neg hk]
        exact ih hsome

theorem lookupA_map_replace_ne (l : List (String × β)) {key k : String} (v : β)
    (hne : k ≠ key) :
    lookupA (l.map (fun p => if p.1 = key then (key, v) else p)) k = lookupA l k := by
  induction l with
  | nil => rfl
  | cons q rest ih =>
      obtain ⟨k', w⟩ := q
      simp only [List.map_cons]
      by_cases hk : k' = key
      · have h1 : (if (k', w).1 = key then (key, v) else (k', w)) = (key, v) := by simp [hk]
        have h2 : ¬key = k := fun hc => hne hc.symm
        have h3 : ¬k' = k := fun hc => hne (hc ▸ hk)
        rw [h1, lookupA_cons, if_neg h2, lookupA_cons, if_neg h3, ih]
      · have h1 : (if (k', w).1 = key then (key, v) else (k', w)) = (k', w) := by simp [hk]
        rw [h1, lookupA_cons, lookupA_cons, ih]

theorem lookupA_updateA_self (l : List (String × β)) (key : String) (v : β) :
    lookupA (updateA l key v) key = some v := by
  unfold updateA
  by_cases hs : (lookupA l key).isSome
  · rw [if_pos hs]
    exact lookupA_map_replace_self l key v hs
  · rw [if_neg hs]
    have hnone : lookupA l key = none := Option.not_isSome_iff_eq_none.mp hs
    rw [lookupA_append_none _ _ _ hnone, lookupA_cons, if_pos rfl]

theorem lookupA_updateA_ne (l : List (String × β)) {key k : String} (v : β)
    (hne : k ≠ key) : lookupA (updateA l key v) k = lookupA l k := by
  unfold updateA
  by_cases hs : (lookupA l key).isSome
  · rw [if_pos hs]
    exact lookupA_map_replace_ne l v hne
  · rw [if_neg hs]
    cases h : lookupA l k with
    | some w => exact lookupA_append_some _ _ _ _ h
    | none =>
        rw [lookupA_append_none _ _ _ h, lookupA_cons,
          if_neg (fun hc => hne hc.symm)]
        rfl

theorem eraseA_idem (l : List (String × β)) (key : String) :
    eraseA (eraseA l key) key = eraseA l key := by
  simp [eraseA, List.filter_filter]

theorem length_eraseA_of_mem (l : List (String × β)) (key : String)
    (hnodup : (l.map Prod.fst).Nodup) (hsome : (lookupA l key).isSome) :
    (eraseA l key).length + 1 = l.length := by
  induction l with
  | nil => simp [lookupA] at hsome
  | cons q rest ih =>
      obtain ⟨k, v⟩ := q
      simp only [List.map_cons, List.nodup_cons] at hnodup
      by_cases hk : k = key
      · have hrest : lookupA rest key = none := by
          rw [lookupA_eq_none_iff]
          intro p hp hc
          have hmem : k ∈ List.map Prod.fst rest := by
            rw [hk, ← hc]
            exact List.mem_map_of_mem Prod.fst hp
          exact hnodup.1 hmem
        rw [eraseA_cons, if_pos hk, eraseA_eq_self_of_none rest key (hk ▸ hrest)]
        simp
      · rw [lookupA_cons, if_neg hk] at hsome
        rw [eraseA_cons, if_neg hk]
        simp only [List.length_cons]
        have := ih hnodup.2 hsome
        omega

theorem mem_updateA (l : List (String × β)) (key : String) (v : β)
    (p : String × β) (hp : p ∈ updateA l key v) : p ∈ l ∨ p = (key, v) := by
  unfold updateA at hp
  by_cases hs : (lookupA l key).isSome
  · rw [if_pos hs] at hp
    obtain ⟨q, hq, hfq⟩ := List.mem_map.mp hp
    by_cases hqk : q.1 = key
    · right
      rw [if_pos hqk] at hfq
      exact hfq.symm
    · left
      rw [if_neg hqk] at hfq
      exact hfq ▸ hq
  · rw [if_neg hs] at hp
    rcases List.mem_append.mp hp with h | h
    · exact Or.inl h
    · right
      simpa using h

end AssocLemmas

section OpLemmas

theorem delete_eq_removeEntry {α : Type} (h : String → String) (s : CacheState α)
    (video_id : String) :
    TranscriptionCache.delete h s video_id = removeEntry s (h video_id) := by
  have hf : (if (lookupA s.files (h video_id)).isSome then eraseA s.files (h video_id)
      else s.files) = eraseA s.files (h video_id) := by
    by_cases h1 : (lookupA s.files (h video_id)).isSome
    · rw [if_pos h1]
    · rw [if_neg h1,
        eraseA_eq_self_of_none _ _ (Option.not_isSome_iff_eq_none.mp h1)]
  have hm : (if (lookupA s.metadata (h video_id)).isSome then eraseA s.metadata (h video_id)
      else s.metadata) = eraseA s.metadata (h video_id) := by
    by_cases h1 : (lookupA s.metadata (h video_id)).isSome
    · rw [if_pos h1]
    · rw [if_neg h1,
        eraseA_eq_self_of_none _ _ (Option.not_isSome_iff_eq_none.mp h1)]
  simp only [TranscriptionCache.delete, removeEntry]
  rw [hf, hm]

theorem cacheInv_removeEntry {α : Type} {s : CacheState α} (hInv : CacheInv s)
    (key : String) : CacheInv (removeEntry s key) := by
  intro k
  by_cases hk : k = key
  · subst hk
    simp [removeEntry, lookupA_eraseA_self]
  · simp only [removeEntry]
    rw [lookupA_eraseA_ne _ hk, lookupA_eraseA_ne _ hk]
    exact hInv k

theorem cacheInv_delete {α : Type} {s : CacheState α} (hInv : CacheInv s)
    (h : String → String) (vid : String) :
    CacheInv (TranscriptionCache.delete h s vid) := by
  rw [delete_eq_removeEntry]
  exact cacheInv_removeEntry hInv _

theorem cacheInv_evictLoop {α : Type} (h : String → String) (maxSize : Nat)
    (l : List (String × MetaEntry)) :
    ∀ (total : Nat) (s : CacheState α), CacheInv s →
      CacheInv (TranscriptionCache.evictLoop h maxSize l total s) := by
  induction l with
  | nil => intro total s hs; exact hs
  | cons q rest ih =>
      intro total s hs
      obtain ⟨k, e⟩ := q
      unfold TranscriptionCache.evictLoop
      by_cases hc : total > maxSize
      · rw [if_pos hc]
        exact ih _ _ (cacheInv_delete hs h e.video_id)
      · rw [if_neg hc]
        exact hs

theorem cacheInv_cleanup {α : Type} (h : String → String) (maxSize : Nat)
    {s : CacheState α} (hs : CacheInv s) :
    CacheInv (TranscriptionCache.cleanupIfNeeded h maxSize s) := by
  unfold TranscriptionCache.cleanupIfNeeded
  by_cases hc : sumSizes s.metadata > maxSize
  · rw [if_pos hc]
    exact cacheInv_evictLoop h maxSize _ _ _ hs
  · rw [if_neg hc]
    exact hs

theorem cacheInv_setUpdate {α : Type} (h : String → String) (sz : α → Nat) (now : Nat)
    {s : CacheState α} (hs : CacheInv s) (vid : String) (data : α) :
    CacheInv (TranscriptionCache.setUpdate h sz now s vid data) := by
  intro k
  by_cases hk : k = h vid
  · subst hk
    simp only [TranscriptionCache.setUpdate]
    rw [lookupA_updateA_self, lookupA_updateA_self]
    simp
  · simp only [TranscriptionCache.setUpdate]
    rw [lookupA_updateA_ne _ _ hk, lookupA_updateA_ne _ _ hk]
    exact hs k

theorem get_snd_cases {α : Type} (h : String → String) (maxAge now : Nat)
    (s : CacheState α) (vid : String) :
    (TranscriptionCache.get h maxAge now s vid).2 = s ∨
    (TranscriptionCache.get h maxAge now s vid).2 = TranscriptionCache.delete h s vid := by
  simp only [TranscriptionCache.get]
  split
  · left; rfl
  · split
    · right; rfl
    · split
      · left; rfl
      · right; rfl

theorem cacheInv_get {α : Type} (h : String → String) (maxAge now : Nat)
    {s : CacheState α} (hs : CacheInv s) (vid : String) :
    CacheInv (TranscriptionCache.get h maxAge now s vid).2 := by
  rcases get_snd_cases h maxAge now s vid with he | he <;> rw [he]
  · exact hs
  · exact cacheInv_delete hs h vid

theorem get_corrupt_eq {α : Type} (h : String → String) (maxAge now : Nat)
    (s : CacheState α) (vid : String)
    (hfile : lookupA s.files (h vid) = some FileData.corrupt) :
    TranscriptionCache.get h maxAge now s vid
      = (none, TranscriptionCache.delete h s vid) := by
  simp only [TranscriptionCache.get, hfile]
  split <;> rfl

end OpLemmas

/-- C1: for every logical id and every artifact, `set` followed by `get`
(with no eviction triggered by the `set` and no expiry before the `get`)
returns a value deep-equal to the artifact. -/
theorem set_get_roundtrip {α : Type} (h : String → String) (sz : α → Nat)
    (maxAge maxSize t0 t1 : Nat) (s : CacheState α) (vid : String) (data : α)
    (hnoevict :
      sumSizes (TranscriptionCache.setUpdate h sz t0 s vid data).metadata ≤ maxSize)
    (hnoexpiry : t1 - t0 ≤ maxAge) :
    (TranscriptionCache.get h maxAge t1
        (TranscriptionCache.set h sz maxSize t0 s vid data) vid).1 = some data := by
  have hset : TranscriptionCache.set h sz maxSize t0 s vid data
      = TranscriptionCache.setUpdate h sz t0 s vid data := by
    simp only [TranscriptionCache.set, TranscriptionCache.cleanupIfNeeded]
    rw [if_neg (Nat.not_lt.mpr hnoevict)]
  have hf : lookupA (TranscriptionCache.setUpdate h sz t0 s vid data).files (h vid)
      = some (FileData.good data) := lookupA_updateA_self _ _ _
  have hm : lookupA (TranscriptionCache.setUpdate h sz t0 s vid data).metadata (h vid)
      = some ⟨vid, t0, sz data⟩ := lookupA_updateA_self _ _ _
  rw [hset]
  simp only [TranscriptionCache.get, hf, hm]
  simp [Nat.not_lt.mpr hnoexpiry]

/-- Witness for C1 at a concrete input. -/
theorem set_get_roundtrip_witness :
    (TranscriptionCache.get (fun v => v) 5 4
        (TranscriptionCache.set (fun v => v) (fun _ : Nat => 3) 10 0 ⟨[], []⟩ "v" 42)
        "v").1 = some 42 :=
  set_get_roundtrip (fun v => v) (fun _ => 3) 5 10 0 4 ⟨[], []⟩ "v" 42
    (by decide) (by decide)

/-- C3: after `set` at time t0 (whose own cleanup evicts nothing), a `get`
strictly later than t0 + maxAge returns absent and removes both the
artifact file and the metadata entry, while a `get` earlier than
t0 + maxAge returns the artifact. -/
theorem expiry_boundary {α : Type} (h : String → String) (sz : α → Nat)
    (maxAge maxSize t0 t1 : Nat) (s : CacheState α) (vid : String) (data : α)
    (hnoevict :
      sumSizes (TranscriptionCache.setUpdate h sz t0 s vid data).metadata ≤ maxSize) :
    (t0 + maxAge < t1 →
      (TranscriptionCache.get h maxAge t1
          (TranscriptionCache.set h sz maxSize t0 s vid data) vid).1 = none ∧
      lookupA (TranscriptionCache.get h maxAge t1
          (TranscriptionCache.set h sz maxSize t0 s vid data) vid).2.files (h vid)
        = none ∧
      lookupA (TranscriptionCache.get h maxAge t1
          (TranscriptionCache.set h sz maxSize t0 s vid data) vid).2.metadata (h vid)
        = none) ∧
    (t1 < t0 + maxAge →
      (TranscriptionCache.get h maxAge t1
          (TranscriptionCache.set h sz maxSize t0 s vid data) vid).1 = some data) := by
  have hset : TranscriptionCache.set h sz maxSize t0 s vid data
      = TranscriptionCache.setUpdate h sz t0 s vid data := by
    simp only [TranscriptionCache.set, TranscriptionCache.cleanupIfNeeded]
    rw [if_neg (Nat.not_lt.mpr hnoevict)]
  have hf : lookupA (TranscriptionCache.setUpdate h sz t0 s vid data).files (h vid)
      = some (FileData.good data) := lookupA_updateA_self _ _ _
  have hm : lookupA (TranscriptionCache.setUpdate h sz t0 s vid data).metadata (h vid)
      = some ⟨vid, t0, sz data⟩ := lookupA_updateA_self _ _ _
  constructor
  · intro hlate
    have hexp : maxAge < t1 - t0 := by omega
    have hget : TranscriptionCache.get h maxAge t1
        (TranscriptionCache.setUpdate h sz t0 s vid data) vid
        = (none, TranscriptionCache.delete h
            (TranscriptionCache.setUpdate h sz t0 s vid data) vid) := by
      simp only [TranscriptionCache.get, hf, hm]
      simp [hexp]
    rw [hset, hget, delete_eq_removeEntry]
    exact ⟨rfl, lookupA_eraseA_self _ _, lookupA_eraseA_self _ _⟩
  · intro hearly
    have hexp : ¬(maxAge < t1 - t0) := by omega
    rw [hset]
    simp only [TranscriptionCache.get, hf, hm]
    simp [hexp]

/-- Witness for C3 at concrete inputs, one per boundary side. -/
theorem expiry_boundary_witness :
    ((TranscriptionCache.get (fun v => v) 5 16
        (TranscriptionCache.set (fun v => v) (fun _ : Nat => 3) 10 10 ⟨[], []⟩ "v" 42)
        "v").1 = none) ∧
    ((TranscriptionCache.get (fun v => v) 5 12
        (TranscriptionCache.set (fun v => v) (fun _ : Nat => 3) 10 10 ⟨[], []⟩ "v" 42)
        "v").1 = some 42) :=
  ⟨((expiry_boundary (fun v => v) (fun _ => 3) 5 10 10 16 ⟨[], []⟩ "v" 42
      (by decide)).1 (by decide)).1,
   (expiry_boundary (fun v => v) (fun _ => 3) 5 10 10 12 ⟨[], []⟩ "v" 42
      (by decide)).2 (by decide)⟩

/-- C4: every mutating operation preserves the lock-step invariant that a
metadata record exists for a key iff the artifact file for that key
exists (eviction runs inside `set`; expiry and corruption cleanup run
inside `get`). -/
theorem mutators_preserve_lockstep {α : Type} (h : String → String) (sz : α → Nat)
    (maxAge maxSize now : Nat) (s : CacheState α) (vid : String) (data : α)
    (hInv : CacheInv s) :
    CacheInv (TranscriptionCache.set h sz maxSize now s vid data) ∧
    CacheInv (TranscriptionCache.delete h s vid) ∧
    CacheInv (TranscriptionCache.clear s) ∧
    CacheInv (TranscriptionCache.get h maxAge now s vid).2 := by
  refine ⟨?_, cacheInv_delete hInv h vid, ?_, cacheInv_get h maxAge now hInv vid⟩
  · exact cacheInv_cleanup h maxSize (cacheInv_setUpdate h sz now hInv vid data)
  · intro k
    simp [TranscriptionCache.clear, lookupA]

/-- Witness for C4 at a concrete input. -/
theorem mutators_preserve_lockstep_witness :
    CacheInv (TranscriptionCache.set (fun v => v) (fun _ : Nat => 1) 10 0 ⟨[], []⟩
      "a" 7) ∧
    CacheInv (TranscriptionCache.delete (fun v => v) (⟨[], []⟩ : CacheState Nat) "a") ∧
    CacheInv (TranscriptionCache.clear (⟨[], []⟩ : CacheState Nat)) ∧
    CacheInv (TranscriptionCache.get (fun v => v) 5 0 (⟨[], []⟩ : CacheState Nat) "a").2 :=
  mutators_preserve_lockstep (fun v => v) (fun _ => 1) 5 10 0 ⟨[], []⟩ "a" 7
    (fun _ => by simp [lookupA])

/-- C5: a `get` on a key whose artifact file is unreadable or unparseable
returns absent (the model is total, so nothing is raised), removes both
the file and the metadata entry, and the entry count reported afterwards
by `get_stats` reflects the removal. -/
theorem corrupt_get_self_heals {α : Type} (h : String → String)
    (maxAge maxSize now : Nat) (s : CacheState α) (vid : String)
    (hfile : lookupA s.files (h vid) = some FileData.corrupt) :
    (TranscriptionCache.get h maxAge now s vid).1 = none ∧
    lookupA (TranscriptionCache.get h maxAge now s vid).2.files (h vid) = none ∧
    lookupA (TranscriptionCache.get h maxAge now s vid).2.metadata (h vid) = none ∧
    ((s.metadata.map Prod.fst).Nodup → (lookupA s.metadata (h vid)).isSome →
      (TranscriptionCache.get_stats maxSize
          (TranscriptionCache.get h maxAge now s vid).2).total_videos + 1
        = (TranscriptionCache.get_stats maxSize s).total_videos) := by
  rw [get_corrupt_eq h maxAge now s vid hfile, delete_eq_removeEntry]
  refine ⟨rfl, lookupA_eraseA_self _ _, lookupA_eraseA_self _ _, ?_⟩
  intro hnodup hsome
  simp only [TranscriptionCache.get_stats, removeEntry]
  exact length_eraseA_of_mem s.metadata (h vid) hnodup hsome

/-- Witness for C5 at a concrete input. -/
theorem corrupt_get_self_heals_witness :
    (TranscriptionCache.get (fun v => v) 5 0
        (⟨[("v", FileData.corrupt)], [("v", ⟨"v", 0, 3⟩)]⟩ : CacheState Nat) "v").1
      = none ∧
    lookupA (TranscriptionCache.get (fun v => v) 5 0
        (⟨[("v", FileData.corrupt)], [("v", ⟨"v", 0, 3⟩)]⟩ : CacheState Nat) "v").2.files
        "v" = none ∧
    lookupA (TranscriptionCache.get (fun v => v) 5 0
        (⟨[("v", FileData.corrupt)], [("v", ⟨"v", 0, 3⟩)]⟩ : CacheState Nat)
        "v").2.metadata "v" = none ∧
    (TranscriptionCache.get_stats 10
        (TranscriptionCache.get (fun v => v) 5 0
          (⟨[("v", FileData.corrupt)], [("v", ⟨"v", 0, 3⟩)]⟩ : CacheState Nat)
          "v").2).total_videos + 1
      = (TranscriptionCache.get_stats 10
          (⟨[("v", FileData.corrupt)], [("v", ⟨"v", 0, 3⟩)]⟩ : CacheState Nat)).total_videos := by
  have hc := corrupt_get_self_heals (fun v => v) 5 10 0
    (⟨[("v", FileData.corrupt)], [("v", ⟨"v", 0, 3⟩)]⟩ : CacheState Nat) "v" (by decide)
  exact ⟨hc.1, hc.2.1, hc.2.2.1, hc.2.2.2 (by decide) (by decide)⟩

/-- C7: after `clear`, the entry count reported by `get_stats` is zero and
`get` returns absent for every id. -/
theorem clear_wipes_all {α : Type} (h : String → String) (maxAge maxSize now : Nat)
    (s : CacheState α) (video_id : String) :
    (TranscriptionCache.get_stats maxSize (TranscriptionCache.clear s)).total_videos
      = 0 ∧
    (TranscriptionCache.get h maxAge now (TranscriptionCache.clear s) video_id).1
      = none :=
  ⟨rfl, rfl⟩

/-- C8: `delete` is idempotent and total: deleting twice equals deleting
once, and deleting an id with no file and no metadata record leaves the
state unchanged. -/
theorem delete_idempotent_total {α : Type} (h : String → String) (s : CacheState α)
    (vid : String) :
    TranscriptionCache.delete h (TranscriptionCache.delete h s vid) vid
      = TranscriptionCache.delete h s vid ∧
    (lookupA s.files (h vid) = none → lookupA s.metadata (h vid) = none →
      TranscriptionCache.delete h s vid = s) := by
  constructor
  · rw [delete_eq_removeEntry, delete_eq_removeEntry]
    simp [removeEntry, eraseA_idem]
  · intro h1 h2
    simp [TranscriptionCache.delete, h1, h2]

/-- Witness for C8 at a concrete input. -/
theorem delete_idempotent_total_witness :
    TranscriptionCache.delete (fun v => v)
        (⟨[("b", FileData.good (3 : Nat))], [("b", ⟨"b", 0, 4⟩)]⟩ : CacheState Nat) "a"
      = ⟨[("b", FileData.good 3)], [("b", ⟨"b", 0, 4⟩)]⟩ :=
  (delete_idempotent_total (fun v => v)
    (⟨[("b", FileData.good 3)], [("b", ⟨"b", 0, 4⟩)]⟩ : CacheState Nat) "a").2
    (by decide) (by decide)

/-- C9: a clean hit (file present and parseable, entry absent or not
expired) returns the artifact and leaves the whole state unchanged. -/
theorem clean_hit_no_writes {α : Type} (h : String → String) (maxAge now : Nat)
    (s : CacheState α) (vid : String) (a : α)
    (hfile : lookupA s.files (h vid) = some (FileData.good a))
    (hfresh : ∀ e, lookupA s.metadata (h vid) = some e → now - e.timestamp ≤ maxAge) :
    TranscriptionCache.get h maxAge now s vid = (some a, s) := by
  simp only [TranscriptionCache.get, hfile]
  cases hm : lookupA s.metadata (h vid) with
  | none => simp
  | some e =>
      have hle := hfresh e hm
      simp [Nat.not_lt.mpr hle]

/-- Witness for C9 at a concrete input. -/
theorem clean_hit_no_writes_witness :
    TranscriptionCache.get (fun v => v) 5 12
        (⟨[("v", FileData.good (7 : Nat))], [("v", ⟨"v", 10, 3⟩)]⟩ : CacheState Nat) "v"
      = (some 7, ⟨[("v", FileData.good 7)], [("v", ⟨"v", 10, 3⟩)]⟩) :=
  clean_hit_no_writes (fun v => v) 5 12
    (⟨[("v", FileData.good 7)], [("v", ⟨"v", 10, 3⟩)]⟩ : CacheState Nat) "v" 7
    (by decide)
    (fun e he => by
      have h3 : lookupA (⟨[("v", FileData.good (7 : Nat))],
          [("v", ⟨"v", 10, 3⟩)]⟩ : CacheState Nat).metadata ((fun v : String => v) "v")
          = some ⟨"v", 10, 3⟩ := rfl
      have h4 : some (⟨"v", 10, 3⟩ : MetaEntry) = some e := h3.symm.trans he
      have h5 : e = ⟨"v", 10, 3⟩ := (Option.some_inj.mp h4).symm
      rw [h5]
      decide)

/-- C10: when the artifact file exists but the metadata index has no
record for the key, `get` returns the parsed artifact with no expiry
check at all, at every current time. -/
theorem orphan_file_never_expires {α : Type} (h : String → String) (maxAge now : Nat)
    (s : CacheState α) (vid : String) (a : α)
    (hfile : lookupA s.files (h vid) = some (FileData.good a))
    (hmeta : lookupA s.metadata (h vid) = none) :
    TranscriptionCache.get h maxAge now s vid = (some a, s) := by
  simp [TranscriptionCache.get, hfile, hmeta]

/-- Witness for C10 at a concrete input whose age is far past `maxAge`. -/
theorem orphan_file_never_expires_witness :
    TranscriptionCache.get (fun v => v) 0 100
        (⟨[("v", FileData.good (7 : Nat))], []⟩ : CacheState Nat) "v"
      = (some 7, ⟨[("v", FileData.good 7)], []⟩) :=
  orphan_file_never_expires (fun v => v) 0 100
    (⟨[("v", FileData.good 7)], []⟩ : CacheState Nat) "v" 7 (by decide) (by decide)

section SortLemmas

theorem insertByTime_perm (p : String × MetaEntry) (l : List (String × MetaEntry)) :
    List.Perm (insertByTime p l) (p :: l) := by
  induction l with
  | nil => exact List.Perm.refl _
  | cons q rest ih =>
      unfold insertByTime
      by_cases hc : q.2.timestamp ≤ p.2.timestamp
      · rw [if_pos hc]
        exact (List.Perm.cons q ih).trans (List.Perm.swap p q rest)
      · rw [if_neg hc]

theorem foldl_insertByTime_perm (l : List (String × MetaEntry)) :
    ∀ acc, List.Perm (l.foldl (fun acc p => insertByTime p acc) acc) (l ++ acc) := by
  induction l with
  | nil => intro acc; simp
  | cons p rest ih =>
      intro acc
      simp only [List.foldl_cons]
      exact (ih _).trans
        ((List.Perm.append_left rest (insertByTime_perm p acc)).trans List.perm_middle)

theorem sortByTime_perm (l : List (String × MetaEntry)) :
    List.Perm (sortByTime l) l := by
  have hp := foldl_insertByTime_perm l []
  simpa [sortByTime] using hp

theorem sumSizes_cons (k : String) (e : MetaEntry) (l : List (String × MetaEntry)) :
    sumSizes ((k, e) :: l) = e.size + sumSizes l := by
  simp [sumSizes]

theorem sumSizes_append (l₁ l₂ : List (String × MetaEntry)) :
    sumSizes (l₁ ++ l₂) = sumSizes l₁ + sumSizes l₂ := by
  simp [sumSizes]

theorem sumSizes_append_cons (l₁ l₂ : List (String × MetaEntry)) (k : String)
    (e : MetaEntry) :
    sumSizes (l₁ ++ (k, e) :: l₂) = sumSizes (l₁ ++ l₂) + e.size := by
  rw [sumSizes_append, sumSizes_cons, sumSizes_append]
  omega

theorem sumSizes_perm {l₁ l₂ : List (String × MetaEntry)} (hp : List.Perm l₁ l₂) :
    sumSizes l₁ = sumSizes l₂ := by
  unfold sumSizes
  exact List.Perm.sum_eq (hp.map _)

end SortLemmas

section EvictionRefinement

theorem evictLoop_eq_spec {α : Type} (h : String → String) (maxSize : Nat) :
    ∀ (l : List (String × MetaEntry)) (total : Nat) (s : CacheState α),
      (∀ p ∈ l, h p.2.video_id = p.1) →
      TranscriptionCache.evictLoop h maxSize l total s
        = evictLoopSpec maxSize l total s := by
  intro l
  induction l with
  | nil => intro total s _; rfl
  | cons q rest ih =>
      intro total s hWF
      obtain ⟨k, e⟩ := q
      unfold TranscriptionCache.evictLoop evictLoopSpec
      by_cases hc : total > maxSize
      · rw [if_pos hc, if_neg (Nat.not_le.mpr hc)]
        have hk : h e.video_id = k := hWF (k, e) (List.mem_cons_self _ _)
        rw [delete_eq_removeEntry, hk]
        exact ih _ _ (fun p hp => hWF p (List.mem_cons_of_mem _ hp))
      · rw [if_neg hc, if_pos (Nat.not_lt.mp hc)]

theorem cleanup_eq_spec {α : Type} (h : String → String) (maxSize : Nat)
    (s : CacheState α) (hWF : ∀ p ∈ s.metadata, h p.2.video_id = p.1) :
    TranscriptionCache.cleanupIfNeeded h maxSize s = cleanupSpec maxSize s := by
  unfold TranscriptionCache.cleanupIfNeeded cleanupSpec
  by_cases hc : sumSizes s.metadata > maxSize
  · rw [if_pos hc, if_neg (Nat.not_le.mpr hc)]
    exact evictLoop_eq_spec h maxSize _ _ _
      (fun p hp => hWF p ((sortByTime_perm s.metadata).mem_iff.mp hp))
  · rw [if_neg hc, if_pos (Nat.not_lt.mp hc)]

theorem wf_setUpdate {α : Type} (h : String → String) (sz : α → Nat) (now : Nat)
    (s : CacheState α) (vid : String) (data : α)
    (hWF : ∀ p ∈ s.metadata, h p.2.video_id = p.1) :
    ∀ p ∈ (TranscriptionCache.setUpdate h sz now s vid data).metadata,
      h p.2.video_id = p.1 := by
  intro p hp
  rcases mem_updateA _ _ _ p hp with hmem | heq
  · exact hWF p hmem
  · rw [heq]

end EvictionRefinement

/-- C2: the eviction triggered after the metadata-update step of every
`set` follows the spec algorithm: if the summed sizes exceed the budget,
entries are removed in ascending stored-time order, each removal deleting
the artifact file and the metadata record at that entry and decrementing
the running total, until the total is within budget or no entries remain;
when the total is already within budget nothing is removed.  Stated as a
refinement: `set` equals the spec-worded eviction applied to the updated
state, for every state whose metadata keys are the hashes of their ids. -/
theorem set_eviction_follows_spec {α : Type} (h : String → String) (sz : α → Nat)
    (maxSize now : Nat) (s : CacheState α) (vid : String) (data : α)
    (hWF : ∀ p ∈ s.metadata, h p.2.video_id = p.1) :
    TranscriptionCache.set h sz maxSize now s vid data
      = cleanupSpec maxSize (TranscriptionCache.setUpdate h sz now s vid data) :=
  cleanup_eq_spec h maxSize _ (wf_setUpdate h sz now s vid data hWF)

/-- Witness for C2 at a concrete input where the eviction pass runs. -/
theorem set_eviction_follows_spec_witness :
    TranscriptionCache.set (fun v => v) (fun _ : Nat => 6) 10 1
        (⟨[("a", FileData.good 1)], [("a", ⟨"a", 0, 6⟩)]⟩ : CacheState Nat) "b" 2
      = cleanupSpec 10 (TranscriptionCache.setUpdate (fun v => v) (fun _ : Nat => 6) 1
          (⟨[("a", FileData.good 1)], [("a", ⟨"a", 0, 6⟩)]⟩ : CacheState Nat) "b" 2) :=
  set_eviction_follows_spec (fun v => v) (fun _ => 6) 10 1
    (⟨[("a", FileData.good 1)], [("a", ⟨"a", 0, 6⟩)]⟩ : CacheState Nat) "b" 2
    (by decide)

section NewestEntryLemmas

theorem insertByTime_cons (p q : String × MetaEntry)
    (rest : List (String × MetaEntry)) :
    insertByTime p (q :: rest) =
      if q.2.timestamp ≤ p.2.timestamp then q :: insertByTime p rest
      else p :: q :: rest := rfl

theorem insertByTime_append_max (pmax q : String × MetaEntry)
    (hlt : q.2.timestamp < pmax.2.timestamp) (acc : List (String × MetaEntry)) :
    insertByTime q (acc ++ [pmax]) = insertByTime q acc ++ [pmax] := by
  induction acc with
  | nil =>
      rw [List.nil_append, insertByTime_cons, if_neg (Nat.not_le.mpr hlt)]
      rfl
  | cons a rest ih =>
      rw [List.cons_append, insertByTime_cons, insertByTime_cons]
      by_cases hc : a.2.timestamp ≤ q.2.timestamp
      · rw [if_pos hc, if_pos hc, ih, List.cons_append]
      · rw [if_neg hc, if_neg hc, List.cons_append, List.cons_append]

theorem insertByTime_of_all_le (pmax : String × MetaEntry)
    (acc : List (String × MetaEntry))
    (hall : ∀ q ∈ acc, q.2.timestamp ≤ pmax.2.timestamp) :
    insertByTime pmax acc = acc ++ [pmax] := by
  induction acc with
  | nil => rfl
  | cons a rest ih =>
      rw [insertByTime_cons, if_pos (hall a (List.mem_cons_self a rest)),
        ih (fun q hq => hall q (List.mem_cons_of_mem a hq)), List.cons_append]

theorem foldl_insertByTime_append_max (pmax : String × MetaEntry) :
    ∀ (l acc : List (String × MetaEntry)),
      (∀ q ∈ l, q.2.timestamp < pmax.2.timestamp) →
      l.foldl (fun acc p => insertByTime p acc) (acc ++ [pmax])
        = l.foldl (fun acc p => insertByTime p acc) acc ++ [pmax] := by
  intro l
  induction l with
  | nil => intro acc _; rfl
  | cons p rest ih =>
      intro acc hall
      simp only [List.foldl_cons]
      rw [insertByTime_append_max pmax p (hall p (List.mem_cons_self _ _)) acc]
      exact ih _ (fun q hq => hall q (List.mem_cons_of_mem _ hq))

theorem sortByTime_strict_max (l₁ l₂ : List (String × MetaEntry))
    (pmax : String × MetaEntry)
    (hall : ∀ q ∈ l₁ ++ l₂, q.2.timestamp < pmax.2.timestamp) :
    sortByTime (l₁ ++ pmax :: l₂) = sortByTime (l₁ ++ l₂) ++ [pmax] := by
  unfold sortByTime
  rw [List.foldl_append, List.foldl_cons, List.foldl_append]
  have hA : List.Perm (List.foldl (fun acc p => insertByTime p acc) [] l₁) l₁ := by
    simpa using foldl_insertByTime_perm l₁ []
  have hinsert : insertByTime pmax (List.foldl (fun acc p => insertByTime p acc) [] l₁)
      = List.foldl (fun acc p => insertByTime p acc) [] l₁ ++ [pmax] :=
    insertByTime_of_all_le pmax _ (fun q hq =>
      Nat.le_of_lt (hall q (List.mem_append_left l₂ (hA.mem_iff.mp hq))))
  rw [hinsert]
  exact foldl_insertByTime_append_max pmax l₂ _
    (fun q hq => hall q (List.mem_append_right l₁ hq))

theorem evictLoop_keeps_last {α : Type} (h : String → String) (maxSize : Nat)
    (k : String) (e : MetaEntry) (hsz : e.size ≤ maxSize) :
    ∀ (l : List (String × MetaEntry)) (s : CacheState α),
      (∀ p ∈ l, h p.2.video_id ≠ k) →
      lookupA (TranscriptionCache.evictLoop h maxSize (l ++ [(k, e)])
          (sumSizes l + e.size) s).files k = lookupA s.files k ∧
      lookupA (TranscriptionCache.evictLoop h maxSize (l ++ [(k, e)])
          (sumSizes l + e.size) s).metadata k = lookupA s.metadata k := by
  intro l
  induction l with
  | nil =>
      intro s _
      simp only [List.nil_append, sumSizes, List.map_nil, List.sum_nil, Nat.zero_add]
      unfold TranscriptionCache.evictLoop
      rw [if_neg (Nat.not_lt.mpr hsz)]
      exact ⟨rfl, rfl⟩
  | cons p rest ih =>
      intro s hall
      obtain ⟨k', e'⟩ := p
      rw [List.cons_append]
      unfold TranscriptionCache.evictLoop
      by_cases hc : sumSizes ((k', e') :: rest) + e.size > maxSize
      · rw [if_pos hc]
        have htot : sumSizes ((k', e') :: rest) + e.size - e'.size
            = sumSizes rest + e.size := by
          rw [sumSizes_cons]
          omega
        rw [htot, delete_eq_removeEntry]
        have hne : h e'.video_id ≠ k := hall (k', e') (List.mem_cons_self _ _)
        have ihr := ih (removeEntry s (h e'.video_id))
          (fun p hp => hall p (List.mem_cons_of_mem _ hp))
        refine ⟨?_, ?_⟩
        · rw [ihr.1]
          exact lookupA_eraseA_ne _ (Ne.symm hne)
        · rw [ihr.2]
          exact lookupA_eraseA_ne _ (Ne.symm hne)
      · rw [if_neg hc]
        exact ⟨rfl, rfl⟩

theorem lookupA_some_decomp {β : Type} (l : List (String × β)) (key : String) (w : β)
    (hnodup : (l.map Prod.fst).Nodup) (hsome : lookupA l key = some w) :
    ∃ l₁ l₂, l = l₁ ++ (key, w) :: l₂ ∧
      (∀ p ∈ l₁, p.1 ≠ key) ∧ (∀ p ∈ l₂, p.1 ≠ key) := by
  induction l with
  | nil => simp [lookupA] at hsome
  | cons q rest ih =>
      obtain ⟨k', v'⟩ := q
      simp only [List.map_cons, List.nodup_cons] at hnodup
      by_cases hk : k' = key
      · subst hk
        rw [lookupA_cons, if_pos rfl] at hsome
        obtain rfl : v' = w := Option.some_inj.mp hsome
        refine ⟨[], rest, rfl, by simp, ?_⟩
        intro p hp hc
        exact hnodup.1 (hc ▸ List.mem_map_of_mem Prod.fst hp)
      · rw [lookupA_cons, if_neg hk] at hsome
        obtain ⟨l₁, l₂, hdec, h1, h2⟩ := ih hnodup.2 hsome
        refine ⟨(k', v') :: l₁, l₂, by rw [hdec, List.cons_append], ?_, h2⟩
        intro p hp
        rcases List.mem_cons.mp hp with rfl | hp2
        · exact hk
        · exact h1 p hp2

theorem map_replace_decomp {β : Type} (l₁ l₂ : List (String × β)) (key : String)
    (w v : β) (h1 : ∀ p ∈ l₁, p.1 ≠ key) (h2 : ∀ p ∈ l₂, p.1 ≠ key) :
    (l₁ ++ (key, w) :: l₂).map (fun p => if p.1 = key then (key, v) else p)
      = l₁ ++ (key, v) :: l₂ := by
  rw [List.map_append, List.map_cons]
  have e1 : l₁.map (fun p => if p.1 = key then (key, v) else p) = l₁ :=
    map_replace_of_none l₁ key v ((lookupA_eq_none_iff l₁ key).mpr h1)
  have e2 : l₂.map (fun p => if p.1 = key then (key, v) else p) = l₂ :=
    map_replace_of_none l₂ key v ((lookupA_eq_none_iff l₂ key).mpr h2)
  rw [e1, e2]
  simp

theorem updateA_decomp {β : Type} (l : List (String × β)) (key : String) (v : β)
    (hnodup : (l.map Prod.fst).Nodup) :
    ∃ l₁ l₂, updateA l key v = l₁ ++ (key, v) :: l₂ ∧
      (∀ p ∈ l₁ ++ l₂, p ∈ l ∧ p.1 ≠ key) := by
  cases hs : lookupA l key with
  | none =>
      refine ⟨l, [], ?_, ?_⟩
      · unfold updateA
        rw [hs]
        rfl
      · intro p hp
        rw [List.append_nil] at hp
        exact ⟨hp, (lookupA_eq_none_iff l key).mp hs p hp⟩
  | some w =>
      obtain ⟨l₁, l₂, hdec, h1, h2⟩ := lookupA_some_decomp l key w hnodup hs
      refine ⟨l₁, l₂, ?_, ?_⟩
      · unfold updateA
        rw [if_pos (show (lookupA l key).isSome = true by rw [hs]; rfl)]
        rw [hdec, map_replace_decomp l₁ l₂ key w v h1 h2]
      · intro p hp
        rcases List.mem_append.mp hp with hp1 | hp2
        · exact ⟨hdec.symm ▸ List.mem_append_left _ hp1, h1 p hp1⟩
        · exact ⟨hdec.symm ▸ List.mem_append_right _ (List.mem_cons_of_mem _ hp2),
            h2 p hp2⟩

end NewestEntryLemmas

/-- C6 as stated is false on the code: when a `set` re-writes an existing
key and another entry carries the very same timestamp, the updated record
keeps its old (earlier) insertion position, the stable sort leaves it in
front, and the eviction pass removes the just-written entry first even
though its size alone (6) is within the budget (10).  Here both the
artifact file and the metadata record of the entry written by the `set`
are gone afterwards. -/
theorem newest_entry_evicted_counterexample :
    ((fun _ : Nat => 6) 2 ≤ 10) ∧
    lookupA (TranscriptionCache.set (fun v => v) (fun _ : Nat => 6) 10 5
        (⟨[("A", FileData.good 0), ("B", FileData.good 1)],
          [("A", ⟨"A", 5, 6⟩), ("B", ⟨"B", 5, 6⟩)]⟩ : CacheState Nat) "A" 2).files "A"
      = none ∧
    lookupA (TranscriptionCache.set (fun v => v) (fun _ : Nat => 6) 10 5
        (⟨[("A", FileData.good 0), ("B", FileData.good 1)],
          [("A", ⟨"A", 5, 6⟩), ("B", ⟨"B", 5, 6⟩)]⟩ : CacheState Nat) "A" 2).metadata "A"
      = none := by
  decide

/-- C6 amended: a single `set` whose newly written entry alone has size at
most the configured max size never evicts that entry, provided the
metadata keys are the hashes of their ids and pairwise distinct, and every
entry at a different key has a stored time strictly earlier than the
current `set` (the tie-break for equal stored times being the open
question the spec records). -/
theorem set_never_evicts_newest {α : Type} (h : String → String) (sz : α → Nat)
    (maxSize now : Nat) (s : CacheState α) (vid : String) (data : α)
    (hWF : ∀ p ∈ s.metadata, h p.2.video_id = p.1)
    (hnodup : (s.metadata.map Prod.fst).Nodup)
    (hstrict : ∀ p ∈ s.metadata, p.1 ≠ h vid → p.2.timestamp < now)
    (hsz : sz data ≤ maxSize) :
    lookupA (TranscriptionCache.set h sz maxSize now s vid data).files (h vid)
      = some (FileData.good data) ∧
    lookupA (TranscriptionCache.set h sz maxSize now s vid data).metadata (h vid)
      = some ⟨vid, now, sz data⟩ := by
  have hfu : lookupA (TranscriptionCache.setUpdate h sz now s vid data).files (h vid)
      = some (FileData.good data) := lookupA_updateA_self _ _ _
  have hmu : lookupA (TranscriptionCache.setUpdate h sz now s vid data).metadata (h vid)
      = some ⟨vid, now, sz data⟩ := lookupA_updateA_self _ _ _
  obtain ⟨l₁, l₂, hdec, hmem⟩ := updateA_decomp s.metadata (h vid)
    (⟨vid, now, sz data⟩ : MetaEntry) hnodup
  have hmeta_eq : (TranscriptionCache.setUpdate h sz now s vid data).metadata
      = l₁ ++ (h vid, (⟨vid, now, sz data⟩ : MetaEntry)) :: l₂ := hdec
  unfold TranscriptionCache.set TranscriptionCache.cleanupIfNeeded
  by_cases hc :
    sumSizes (TranscriptionCache.setUpdate h sz now s vid data).metadata > maxSize
  · rw [if_pos hc]
    have hallts : ∀ q ∈ l₁ ++ l₂,
        q.2.timestamp < (⟨vid, now, sz data⟩ : MetaEntry).timestamp := by
      intro q hq
      obtain ⟨hqmem, hqne⟩ := hmem q hq
      exact hstrict q hqmem hqne
    have hsort : sortByTime (TranscriptionCache.setUpdate h sz now s vid data).metadata
        = sortByTime (l₁ ++ l₂) ++ [(h vid, (⟨vid, now, sz data⟩ : MetaEntry))] := by
      rw [hmeta_eq]
      exact sortByTime_strict_max l₁ l₂ _ hallts
    have hsum : sumSizes (TranscriptionCache.setUpdate h sz now s vid data).metadata
        = sumSizes (sortByTime (l₁ ++ l₂)) + (⟨vid, now, sz data⟩ : MetaEntry).size := by
      rw [hmeta_eq, sumSizes_append_cons,
        sumSizes_perm (sortByTime_perm (l₁ ++ l₂))]
    have hWFne : ∀ p ∈ sortByTime (l₁ ++ l₂), h p.2.video_id ≠ h vid := by
      intro p hp
      have hpm : p ∈ l₁ ++ l₂ := (sortByTime_perm (l₁ ++ l₂)).mem_iff.mp hp
      obtain ⟨hpmem, hpne⟩ := hmem p hpm
      rw [hWF p hpmem]
      exact hpne
    rw [hsort, hsum]
    have hev := evictLoop_keeps_last h maxSize (h vid)
      (⟨vid, now, sz data⟩ : MetaEntry) hsz (sortByTime (l₁ ++ l₂))
      (TranscriptionCache.setUpdate h sz now s vid data) hWFne
    exact ⟨hev.1.trans hfu, hev.2.trans hmu⟩
  · rw [if_neg hc]
    exact ⟨hfu, hmu⟩

/-- Witness for the amended C6 at a concrete input where eviction runs. -/
theorem set_never_evicts_newest_witness :
    lookupA (TranscriptionCache.set (fun v => v) (fun _ : Nat => 6) 10 1
        (⟨[("a", FileData.good 1)], [("a", ⟨"a", 0, 6⟩)]⟩ : CacheState Nat) "b" 2).files
        "b" = some (FileData.good 2) ∧
    lookupA (TranscriptionCache.set (fun v => v) (fun _ : Nat => 6) 10 1
        (⟨[("a", FileData.good 1)], [("a", ⟨"a", 0, 6⟩)]⟩ : CacheState Nat) "b"
        2).metadata "b" = some ⟨"b", 1, 6⟩ :=
  set_never_evicts_newest (fun v => v) (fun _ => 6) 10 1
    (⟨[("a", FileData.good 1)], [("a", ⟨"a", 0, 6⟩)]⟩ : CacheState Nat) "b" 2
    (by decide) (by decide) (by decide) (by decide)
